import Mathlib

/-!
Verification of the persistent pin-request queue of go-buckets
(`pinning/queue`).  The queue implementation itself ships outside the
checked-in sources (only its test suite, `queue_test.go`, is present), so
the data model and the operations below are modelled from the design
document, checked for consistency against the behaviour the test suite
demands.

The development covers:
* the time-sortable identifier generator (`NewIDFromTime`),
* the per-key request store (`GetRequest`, `RemoveRequest`),
* the query paginator (`ListRequests`),
* the bounded-concurrency dispatcher, as a small-step transition system
  (`Step`), with its reachability invariants.
-/

namespace PinQueue

/-! ### Lexicographic order on identifier strings

Request identifiers are opaque strings ordered bytewise (the store scans
keys in lexicographic order).  `lexLtB`/`lexLeB` are executable
lexicographic comparators on the underlying character lists. -/

/-- Strict comparison of characters by code point. -/
def charLtB (a b : Char) : Bool := a.toNat < b.toNat

/-- Strict lexicographic comparison of character lists. -/
def lexLtB : List Char → List Char → Bool
  | [], [] => false
  | [], _ :: _ => true
  | _ :: _, [] => false
  | a :: as, b :: bs => charLtB a b || (a == b && lexLtB as bs)

/-- Reflexive lexicographic comparison of character lists. -/
def lexLeB : List Char → List Char → Bool
  | [], _ => true
  | _ :: _, [] => false
  | a :: as, b :: bs => charLtB a b || (a == b && lexLeB as bs)

/-- Strict lexicographic order on request identifiers. -/
def ridLt (a b : String) : Bool := lexLtB a.data b.data

/-- Reflexive lexicographic order on request identifiers. -/
def ridLe (a b : String) : Bool := lexLeB a.data b.data

theorem charLtB_irrefl (a : Char) : charLtB a a = false := by
  simp [charLtB]

theorem charLtB_asymm {a b : Char} (h : charLtB a b = true) : charLtB b a = false := by
  simp only [charLtB, decide_eq_true_eq, decide_eq_false_iff_not, not_lt] at *
  omega

theorem charLtB_trans {a b c : Char} (h₁ : charLtB a b = true) (h₂ : charLtB b c = true) :
    charLtB a c = true := by
  simp only [charLtB, decide_eq_true_eq] at *
  omega

theorem char_eq_of_not_ltB {a b : Char} (h₁ : charLtB a b = false) (h₂ : charLtB b a = false) :
    a = b := by
  simp only [charLtB, decide_eq_false_iff_not, not_lt] at h₁ h₂
  have : a.toNat = b.toNat := le_antisymm h₂ h₁
  exact Char.eq_of_val_eq (UInt32.toNat.inj this)

theorem char_beq_iff {a b : Char} : (a == b) = true ↔ a = b := beq_iff_eq

theorem lexLtB_irrefl (l : List Char) : lexLtB l l = false := by
  induction l with
  | nil => rfl
  | cons a as ih => simp [lexLtB, charLtB_irrefl, ih]

theorem lexLtB_asymm : ∀ {l₁ l₂ : List Char}, lexLtB l₁ l₂ = true → lexLtB l₂ l₁ = false
  | [], [], h => by simp [lexLtB] at h
  | [], _ :: _, _ => rfl
  | _ :: _, [], h => by simp [lexLtB] at h
  | a :: as, b :: bs, h => by
    simp only [lexLtB, Bool.or_eq_true, Bool.and_eq_true, beq_iff_eq] at h
    rcases h with h | ⟨rfl, h⟩
    · have hba := charLtB_asymm h
      have hne : ¬b = a := by intro hc; subst hc; simp [charLtB_irrefl] at h
      simp [lexLtB, hba, hne]
    · simp [lexLtB, charLtB_irrefl, lexLtB_asymm h]

theorem lexLtB_total : ∀ {l₁ l₂ : List Char}, l₁ ≠ l₂ →
    lexLtB l₁ l₂ = true ∨ lexLtB l₂ l₁ = true
  | [], [], h => absurd rfl h
  | [], _ :: _, _ => Or.inl rfl
  | _ :: _, [], _ => Or.inr rfl
  | a :: as, b :: bs, h => by
    by_cases hab : charLtB a b = true
    · exact Or.inl (by simp [lexLtB, hab])
    · by_cases hba : charLtB b a = true
      · exact Or.inr (by simp [lexLtB, hba])
      · have hEq : a = b :=
          char_eq_of_not_ltB (Bool.eq_false_iff.mpr hab) (Bool.eq_false_iff.mpr hba)
        subst hEq
        have hne : as ≠ bs := fun hc => h (by rw [hc])
        rcases lexLtB_total hne with h' | h'
        · exact Or.inl (by simp [lexLtB, h'])
        · exact Or.inr (by simp [lexLtB, h'])

theorem lexLtB_trans : ∀ {l₁ l₂ l₃ : List Char}, lexLtB l₁ l₂ = true →
    lexLtB l₂ l₃ = true → lexLtB l₁ l₃ = true
  | [], _, _ :: _, _, _ => rfl
  | [], [], _, h, _ => by simp [lexLtB] at h
  | [], _ :: _, [], _, h => by simp [lexLtB] at h
  | _ :: _, [], _, h, _ => by simp [lexLtB] at h
  | _ :: _, _ :: _, [], _, h => by simp [lexLtB] at h
  | a :: as, b :: bs, c :: cs, h₁, h₂ => by
    simp only [lexLtB, Bool.or_eq_true, Bool.and_eq_true, beq_iff_eq] at h₁ h₂ ⊢
    rcases h₁ with h₁ | ⟨rfl, h₁⟩
    · rcases h₂ with h₂ | ⟨rfl, h₂⟩
      · exact Or.inl (charLtB_trans h₁ h₂)
      · exact Or.inl h₁
    · rcases h₂ with h₂ | ⟨rfl, h₂⟩
      · exact Or.inl h₂
      · exact Or.inr ⟨rfl, lexLtB_trans h₁ h₂⟩

theorem lexLtB_ne {l₁ l₂ : List Char} (h : lexLtB l₁ l₂ = true) : l₁ ≠ l₂ := by
  intro hc; subst hc; simp [lexLtB_irrefl] at h

theorem lexLeB_iff : ∀ {l₁ l₂ : List Char},
    lexLeB l₁ l₂ = true ↔ lexLtB l₁ l₂ = true ∨ l₁ = l₂
  | [], [] => by simp [lexLeB, lexLtB]
  | [], _ :: _ => by simp [lexLeB, lexLtB]
  | _ :: _, [] => by simp [lexLeB, lexLtB]
  | a :: as, b :: bs => by
    simp only [lexLeB, lexLtB, Bool.or_eq_true, Bool.and_eq_true, beq_iff_eq, List.cons.injEq]
    constructor
    · rintro (h | ⟨rfl, h⟩)
      · exact Or.inl (Or.inl h)
      · rcases lexLeB_iff.mp h with h' | rfl
        · exact Or.inl (Or.inr ⟨rfl, h'⟩)
        · exact Or.inr ⟨rfl, rfl⟩
    · rintro ((h | ⟨rfl, h⟩) | ⟨rfl, rfl⟩)
      · exact Or.inl h
      · exact Or.inr ⟨rfl, lexLeB_iff.mpr (Or.inl h)⟩
      · exact Or.inr ⟨rfl, lexLeB_iff.mpr (Or.inr rfl)⟩

theorem ridLt_irrefl (s : String) : ridLt s s = false := lexLtB_irrefl _

theorem ridLt_asymm {a b : String} (h : ridLt a b = true) : ridLt b a = false :=
  lexLtB_asymm h

theorem ridLt_trans {a b c : String} (h₁ : ridLt a b = true) (h₂ : ridLt b c = true) :
    ridLt a c = true := lexLtB_trans h₁ h₂

theorem ridLt_ne {a b : String} (h : ridLt a b = true) : a ≠ b := by
  intro hc; subst hc; simp [ridLt_irrefl] at h

theorem string_eq_of_data_eq {a b : String} (h : a.data = b.data) : a = b := by
  cases a; cases b; exact congrArg String.mk h

theorem ridLt_total {a b : String} (h : a ≠ b) : ridLt a b = true ∨ ridLt b a = true := by
  have : a.data ≠ b.data := fun hc => h (string_eq_of_data_eq hc)
  exact lexLtB_total this

theorem ridLe_iff {a b : String} : ridLe a b = true ↔ ridLt a b = true ∨ a = b := by
  unfold ridLe ridLt
  rw [lexLeB_iff]
  constructor
  · rintro (h | h)
    · exact Or.inl h
    · exact Or.inr (string_eq_of_data_eq h)
  · rintro (h | rfl)
    · exact Or.inl h
    · exact Or.inr rfl

theorem ridLe_total (a b : String) : ridLe a b = true ∨ ridLe b a = true := by
  by_cases h : a = b
  · exact Or.inl (ridLe_iff.mpr (Or.inr h))
  · rcases ridLt_total h with h' | h'
    · exact Or.inl (ridLe_iff.mpr (Or.inl h'))
    · exact Or.inr (ridLe_iff.mpr (Or.inl h'))

theorem ridLe_trans {a b c : String} (h₁ : ridLe a b = true) (h₂ : ridLe b c = true) :
    ridLe a c = true := by
  rcases ridLe_iff.mp h₁ with h₁ | rfl
  · rcases ridLe_iff.mp h₂ with h₂ | rfl
    · exact ridLe_iff.mpr (Or.inl (ridLt_trans h₁ h₂))
    · exact ridLe_iff.mpr (Or.inl h₁)
  · exact h₂

theorem ridLt_of_le_of_ne {a b : String} (h : ridLe a b = true) (hne : a ≠ b) :
    ridLt a b = true := by
  rcases ridLe_iff.mp h with h | rfl
  · exact h
  · exact absurd rfl hne

/-! ### Identifier generator -/

/-- The decimal digit `d` as a character (`'0'` is code point 48). -/
def digitChar (d : Nat) : Char := Char.ofNat (48 + d)

/-- Fixed-width big-endian decimal rendering of a natural number:
`natDigits w n` is the `w`-character rendering of `n % 10 ^ w`,
most-significant digit first. -/
def natDigits : Nat → Nat → List Char
  | 0, _ => []
  | w + 1, n => digitChar (n / 10 ^ w % 10) :: natDigits w (n % 10 ^ w)

/-- Width of the timestamp component of a request identifier. -/
def idTimeWidth : Nat := 16

/-- Modelled from the spec: `NewIDFromTime` of package `pinning/queue`
(the package's implementation is not among the checked-in sources).
It renders the caller-supplied timestamp as a fixed-width, lexicographically
sortable component and appends entropy digits so that identifiers drawn in
the same clock tick remain distinct.  The timestamp is a `Nat`, the entropy
a list of decimal digits. -/
def NewIDFromTime (t : Nat) (entropy : List Nat) : String :=
  String.mk (natDigits idTimeWidth t ++ entropy.map digitChar)

theorem digitChar_lt_iff : ∀ d₁ < 10, ∀ d₂ < 10,
    (charLtB (digitChar d₁) (digitChar d₂) = true ↔ d₁ < d₂) := by decide

theorem digitChar_inj : ∀ d₁ < 10, ∀ d₂ < 10, digitChar d₁ = digitChar d₂ → d₁ = d₂ := by
  decide

theorem natDigits_length (w n : Nat) : (natDigits w n).length = w := by
  induction w generalizing n with
  | zero => rfl
  | succ w ih => simp [natDigits, ih]

theorem lexLtB_natDigits : ∀ (w : Nat) {m n : Nat}, m < n → n < 10 ^ w →
    lexLtB (natDigits w m) (natDigits w n) = true := by
  intro w
  induction w with
  | zero => intro m n hmn hn; omega
  | succ w ih =>
    intro m n hmn hn
    have hmlt : m < 10 ^ (w + 1) := lt_trans hmn hn
    have hmq : m / 10 ^ w < 10 := Nat.div_lt_of_lt_mul (by rw [← pow_succ]; exact hmlt)
    have hnq : n / 10 ^ w < 10 := Nat.div_lt_of_lt_mul (by rw [← pow_succ]; exact hn)
    have hqle : m / 10 ^ w ≤ n / 10 ^ w := Nat.div_le_div_right (le_of_lt hmn)
    rcases lt_or_eq_of_le hqle with hqlt | hqeq
    · have hc : charLtB (digitChar (m / 10 ^ w % 10)) (digitChar (n / 10 ^ w % 10)) = true := by
        rw [Nat.mod_eq_of_lt hmq, Nat.mod_eq_of_lt hnq]
        exact (digitChar_lt_iff _ hmq _ hnq).mpr hqlt
      simp [natDigits, lexLtB, hc]
    · have hdig : (m / 10 ^ w % 10) = (n / 10 ^ w % 10) := by rw [hqeq]
      have hrem : m % 10 ^ w < n % 10 ^ w := by
        have hm' := Nat.div_add_mod m (10 ^ w)
        rw [hqeq] at hm'
        have hn' := Nat.div_add_mod n (10 ^ w)
        omega
      have hrembound : n % 10 ^ w < 10 ^ w :=
        Nat.mod_lt _ (Nat.pos_of_ne_zero (by positivity))
      have htail := ih hrem hrembound
      simp [natDigits, lexLtB, hdig, charLtB_irrefl, htail]

theorem lexLtB_append_of_length_eq : ∀ {l₁ l₂ : List Char}, lexLtB l₁ l₂ = true →
    l₁.length = l₂.length → ∀ e₁ e₂ : List Char, lexLtB (l₁ ++ e₁) (l₂ ++ e₂) = true
  | [], [], h, _, _, _ => by simp [lexLtB] at h
  | [], _ :: _, _, hl, _, _ => by simp at hl
  | _ :: _, [], h, _, _, _ => by simp [lexLtB] at h
  | a :: as, b :: bs, h, hl, e₁, e₂ => by
    simp only [lexLtB, Bool.or_eq_true, Bool.and_eq_true, beq_iff_eq] at h
    rcases h with h | ⟨rfl, h⟩
    · simp [lexLtB, h]
    · have hl' : as.length = bs.length := by simpa using hl
      simp [lexLtB, charLtB_irrefl, lexLtB_append_of_length_eq h hl' e₁ e₂]

theorem map_digitChar_inj : ∀ {e₁ e₂ : List Nat}, (∀ d ∈ e₁, d < 10) → (∀ d ∈ e₂, d < 10) →
    e₁.map digitChar = e₂.map digitChar → e₁ = e₂
  | [], [], _, _, _ => rfl
  | [], _ :: _, _, _, h => by simp at h
  | _ :: _, [], _, _, h => by simp at h
  | a :: as, b :: bs, h₁, h₂, h => by
    simp only [List.map_cons, List.cons.injEq] at h
    have ha : a = b := digitChar_inj a (h₁ a (by simp)) b (h₂ b (by simp)) h.1
    have htl := map_digitChar_inj (fun d hd => h₁ d (by simp [hd]))
      (fun d hd => h₂ d (by simp [hd])) h.2
    rw [ha, htl]

theorem NewIDFromTime_mono {t₁ t₂ : Nat} (e₁ e₂ : List Nat) (h : t₁ < t₂)
    (hb : t₂ < 10 ^ idTimeWidth) :
    ridLt (NewIDFromTime t₁ e₁) (NewIDFromTime t₂ e₂) = true := by
  unfold NewIDFromTime ridLt
  exact lexLtB_append_of_length_eq (lexLtB_natDigits idTimeWidth h hb)
    (by rw [natDigits_length, natDigits_length]) _ _

theorem NewIDFromTime_entropy_inj {t : Nat} {e₁ e₂ : List Nat}
    (h₁ : ∀ d ∈ e₁, d < 10) (h₂ : ∀ d ∈ e₂, d < 10) (hne : e₁ ≠ e₂) :
    NewIDFromTime t e₁ ≠ NewIDFromTime t e₂ := by
  intro hc
  unfold NewIDFromTime at hc
  have hdata : natDigits idTimeWidth t ++ e₁.map digitChar =
      natDigits idTimeWidth t ++ e₂.map digitChar := by
    have := congrArg String.data hc
    simpa using this
  exact hne (map_digitChar_inj h₁ h₂ (List.append_cancel_left hdata))

theorem NewIDFromTime_ne_of_time_lt {t₁ t₂ : Nat} (e₁ e₂ : List Nat) (h : t₁ < t₂)
    (hb : t₂ < 10 ^ idTimeWidth) : NewIDFromTime t₁ e₁ ≠ NewIDFromTime t₂ e₂ :=
  ridLt_ne (NewIDFromTime_mono e₁ e₂ h hb)

/-! ### Data model

Modelled from the spec: the `Request` record of package `pinning/queue`
(one unit of pinning work: bucket key, request identifier, lifecycle
status, handler-opaque payload, timestamps) and the read-only `Query`
descriptor (status filter, mutually exclusive cursors, limit). -/

/-- Lifecycle status of a request: `Queued → Pinning → {Pinned, Failed}`. -/
inductive Status
  | queued
  | pinning
  | pinned
  | failed
  deriving DecidableEq, Repr

/-- One unit of pinning work.  `pinCid` stands for the handler-opaque
payload (the pin's content identifier and options). -/
structure Request where
  key : String
  requestid : String
  status : Status
  pinCid : String
  created : Nat
  updated : Nat
  deriving DecidableEq, Repr

/-- Read-only filter/pagination descriptor for `ListRequests`. -/
structure Query where
  status : List Status := []
  before : Option String := none
  after : Option String := none
  limit : Nat := 0
  deriving DecidableEq, Repr

/-- Errors surfaced synchronously by the queue API. -/
inductive QueueError
  | invalidQuery
  | notFound
  deriving DecidableEq, Repr

/-- The `(Key, RequestID)` address of a request. -/
def pairOf (r : Request) : String × String := (r.key, r.requestid)

/-- The store holds at most one record per `(Key, RequestID)` address. -/
def nodupPairs (store : List Request) : Prop := (store.map pairOf).Nodup

/-- Order on requests induced by the identifier order (reflexive). -/
def reqLE (a b : Request) : Prop := ridLe a.requestid b.requestid = true

/-- Order on requests induced by the identifier order (strict). -/
def reqLT (a b : Request) : Prop := ridLt a.requestid b.requestid = true

instance : DecidableRel reqLE := fun _ _ => inferInstanceAs (Decidable (_ = true))

instance : DecidableRel reqLT := fun _ _ => inferInstanceAs (Decidable (_ = true))

instance : IsTotal Request reqLE := ⟨fun a b => ridLe_total a.requestid b.requestid⟩

instance : IsTrans Request reqLE := ⟨fun _ _ _ => ridLe_trans⟩

instance : IsAntisymm Request reqLT :=
  ⟨fun a b h h' => by
    have := ridLt_asymm h
    rw [h'] at this
    cases this⟩

/-! ### Request store -/

/-- Modelled from the spec: `Queue.GetRequest` of package `pinning/queue`.
Looks up the record addressed by `(key, id)`; fails with `NotFound` when
absent. -/
def GetRequest (store : List Request) (k i : String) : Except QueueError Request :=
  match store.find? (fun r => r.key == k && r.requestid == i) with
  | some r => .ok r
  | none => .error .notFound

/-- Modelled from the spec: `Queue.RemoveRequest` of package
`pinning/queue`.  Deletes the record addressed by `(key, id)`; fails with
`NotFound` when absent. -/
def RemoveRequest (store : List Request) (k i : String) :
    Except QueueError (List Request) :=
  if (store.find? (fun r => r.key == k && r.requestid == i)).isSome then
    .ok (store.eraseP (fun r => r.key == k && r.requestid == i))
  else
    .error .notFound

/-! ### Query / paginator -/

/-- An empty status filter matches every record; a non-empty one matches
exactly the listed statuses. -/
def statusMatch (f : List Status) (r : Request) : Bool :=
  f.isEmpty || f.contains r.status

/-- Default page size is 10 when `Limit` is 0 or unset. -/
def pageLimit (n : Nat) : Nat := if n = 0 then 10 else n

/-- The full matching sequence for a key and a status filter: every stored
record owned by the key whose status passes the filter, ascending by
request identifier.  (The store scans its key range in identifier order;
the model sorts explicitly.) -/
def matching (store : List Request) (k : String) (f : List Status) : List Request :=
  List.insertionSort reqLE
    ((store.filter (fun r => r.key == k)).filter (statusMatch f))

/-- Modelled from the spec: `Queue.ListRequests` of package
`pinning/queue`.  Validates that at most one cursor is supplied, then
returns one page of the matching sequence: ascending from the start with
no cursor, ascending strictly after `After`, or descending strictly below
`Before` (nearest to the cursor first). -/
def ListRequests (store : List Request) (k : String) (q : Query) :
    Except QueueError (List Request) :=
  match q.before, q.after with
  | some _, some _ => .error .invalidQuery
  | none, some x =>
    .ok (((matching store k q.status).filter
      (fun r => ridLt x r.requestid)).take (pageLimit q.limit))
  | some x, none =>
    .ok ((((matching store k q.status).filter
      (fun r => ridLt r.requestid x)).reverse).take (pageLimit q.limit))
  | none, none => .ok ((matching store k q.status).take (pageLimit q.limit))

/-! ### Ordering facts about the matching sequence -/

theorem nodupPairs_sublist {l₁ l₂ : List Request} (h : l₁.Sublist l₂)
    (hn : nodupPairs l₂) : nodupPairs l₁ :=
  List.Nodup.sublist (List.Sublist.map pairOf h) hn

theorem filtered_sublist (store : List Request) (k : String) (f : List Status) :
    ((store.filter (fun r => r.key == k)).filter (statusMatch f)).Sublist store :=
  List.Sublist.trans (List.filter_sublist _) (List.filter_sublist _)

theorem matching_perm (store : List Request) (k : String) (f : List Status) :
    (matching store k f).Perm ((store.filter (fun r => r.key == k)).filter (statusMatch f)) :=
  List.perm_insertionSort _ _

theorem nodup_ids_of_same_key {l : List Request} (hn : nodupPairs l)
    (hk : ∀ r ∈ l, r.key = k) : (l.map Request.requestid).Nodup := by
  have hinj := List.inj_on_of_nodup_map hn
  refine List.Nodup.map_on ?_ (List.Nodup.of_map pairOf hn)
  intro a ha b hb hab
  exact hinj ha hb (by simp [pairOf, hk a ha, hk b hb, hab])

theorem matching_ids_nodup {store : List Request} (hn : nodupPairs store)
    (k : String) (f : List Status) :
    ((matching store k f).map Request.requestid).Nodup := by
  have hsub := filtered_sublist store k f
  have hnf : nodupPairs ((store.filter (fun r => r.key == k)).filter (statusMatch f)) :=
    nodupPairs_sublist hsub hn
  have hk : ∀ r ∈ (store.filter (fun r => r.key == k)).filter (statusMatch f), r.key = k := by
    intro r hr
    have := List.of_mem_filter (List.mem_of_mem_filter hr)
    simpa using this
  have hids := nodup_ids_of_same_key hnf hk
  exact ((matching_perm store k f).map Request.requestid).nodup_iff.mpr hids

theorem matching_sorted {store : List Request} (hn : nodupPairs store)
    (k : String) (f : List Status) : (matching store k f).Pairwise reqLT := by
  have hle : (matching store k f).Pairwise reqLE :=
    List.sorted_insertionSort reqLE _
  have hne : (matching store k f).Pairwise
      (fun a b => a.requestid ≠ b.requestid) := by
    have := matching_ids_nodup hn k f
    rwa [List.Nodup, List.pairwise_map] at this
  exact (hle.and hne).imp fun h => ridLt_of_le_of_ne h.1 h.2

theorem matching_key_status {store : List Request} {k : String} {f : List Status}
    {r : Request} (hr : r ∈ matching store k f) :
    r ∈ store ∧ r.key = k ∧ statusMatch f r = true := by
  have hmem := (matching_perm store k f).mem_iff.mp hr
  refine ⟨(filtered_sublist store k f).mem hmem, ?_, List.of_mem_filter hmem⟩
  have := List.of_mem_filter (List.mem_of_mem_filter hmem)
  simpa using this

theorem pageLimit_pos (n : Nat) : 0 < pageLimit n := by
  unfold pageLimit; split <;> omega

/-! ### Forward (`After`) pagination -/

theorem pairwise_rel_getLast {α : Type} {R : α → α → Prop} :
    ∀ {l : List α} {y : α}, l.Pairwise R → l.getLast? = some y →
      ∀ x ∈ l, x = y ∨ R x y := by
  intro l
  induction l with
  | nil => intro y _ hy; cases hy
  | cons a t ih =>
    intro y hp hy x hx
    cases t with
    | nil =>
      simp only [List.getLast?_singleton, Option.some.injEq] at hy
      subst hy
      rcases List.mem_singleton.mp hx with rfl
      exact Or.inl rfl
    | cons b t' =>
      rw [List.getLast?_cons_cons] at hy
      have hne : (b :: t') ≠ ([] : List α) := by simp
      have hymem : y ∈ b :: t' := by
        have h2 := List.getLast?_eq_getLast (b :: t') hne
        rw [hy] at h2
        rw [Option.some_inj.mp h2]
        exact List.getLast_mem hne
      rcases List.mem_cons.mp hx with rfl | hx'
      · exact Or.inr ((List.pairwise_cons.mp hp).1 y hymem)
      · exact ih (List.pairwise_cons.mp hp).2 hy x hx'

theorem filter_gt_last {l₁ l₂ : List Request} {y : Request}
    (h : (l₁ ++ l₂).Pairwise reqLT) (hy : l₁.getLast? = some y) :
    (l₁ ++ l₂).filter (fun r => ridLt y.requestid r.requestid) = l₂ := by
  rcases List.pairwise_append.mp h with ⟨h₁, h₂, h₁₂⟩
  have hymem : y ∈ l₁ := by
    have hne : l₁ ≠ [] := by intro hc; subst hc; cases hy
    have h2 := List.getLast?_eq_getLast l₁ hne
    rw [hy] at h2
    rw [Option.some_inj.mp h2]
    exact List.getLast_mem hne
  rw [List.filter_append]
  have hleft : l₁.filter (fun r => ridLt y.requestid r.requestid) = [] := by
    rw [List.filter_eq_nil_iff]
    intro x hx
    rcases pairwise_rel_getLast h₁ hy x hx with rfl | hlt
    · simp [ridLt_irrefl]
    · simp [ridLt_asymm hlt]
  have hright : l₂.filter (fun r => ridLt y.requestid r.requestid) = l₂ := by
    rw [List.filter_eq_self]
    intro b hb
    exact h₁₂ y hymem b hb
  rw [hleft, hright, List.nil_append]

/-- The query issued at each step of forward pagination. -/
def afterQuery (f : List Status) (n : Nat) (cursor : Option String) : Query :=
  { status := f, before := none, after := cursor, limit := n }

/-- The part of the matching sequence beyond the cursor. -/
def cursorTail (c : Option String) (l : List Request) : List Request :=
  match c with
  | none => l
  | some x => l.filter (fun r => ridLt x r.requestid)

/-- Forward pagination: request a page, then continue from the identifier
of the page's last element, concatenating all pages. -/
def collectAfter (store : List Request) (k : String) (f : List Status) (n : Nat) :
    Nat → Option String → List Request
  | 0, _ => []
  | fuel + 1, cur =>
    match ListRequests store k (afterQuery f n cur) with
    | .error _ => []
    | .ok page =>
      match page.getLast? with
      | none => []
      | some last => page ++ collectAfter store k f n fuel (some last.requestid)

theorem listRequests_afterQuery (store : List Request) (k : String) (f : List Status)
    (n : Nat) (c : Option String) :
    ListRequests store k (afterQuery f n c) =
      .ok ((cursorTail c (matching store k f)).take (pageLimit n)) := by
  cases c <;> rfl

theorem cursorTail_pairwise {c : Option String} {l : List Request}
    (h : l.Pairwise reqLT) : (cursorTail c l).Pairwise reqLT := by
  cases c with
  | none => exact h
  | some x => exact List.Pairwise.sublist (List.filter_sublist l) h

theorem cursorTail_length_le (c : Option String) (l : List Request) :
    (cursorTail c l).length ≤ l.length := by
  cases c with
  | none => exact le_rfl
  | some x => exact (List.filter_sublist l).length_le

theorem cursorTail_getLast_take {c : Option String} {M : List Request}
    (hM : M.Pairwise reqLT) {y : Request} (L : Nat)
    (hy : ((cursorTail c M).take L).getLast? = some y) :
    cursorTail (some y.requestid) M = (cursorTail c M).drop L := by
  have hmP : (cursorTail c M).Pairwise reqLT := cursorTail_pairwise hM
  have hyfilter : (cursorTail c M).filter (fun r => ridLt y.requestid r.requestid) =
      (cursorTail c M).drop L := by
    have h1 := @filter_gt_last ((cursorTail c M).take L) ((cursorTail c M).drop L) y
      (by rw [List.take_append_drop]; exact hmP) hy
    rwa [List.take_append_drop] at h1
  have hymem : y ∈ cursorTail c M := by
    have hne : (cursorTail c M).take L ≠ [] := by intro hc; rw [hc] at hy; cases hy
    have h2 := List.getLast?_eq_getLast ((cursorTail c M).take L) hne
    rw [hy] at h2
    refine List.take_subset L (cursorTail c M) ?_
    rw [Option.some_inj.mp h2]
    exact List.getLast_mem hne
  cases c with
  | none => exact hyfilter
  | some x =>
    simp only [cursorTail] at hymem hyfilter ⊢
    have hxy : ridLt x y.requestid = true :=
      @List.of_mem_filter Request (fun r => ridLt x r.requestid) y M hymem
    rw [← hyfilter, List.filter_filter]
    refine List.filter_congr ?_
    intro r _
    by_cases hr : ridLt y.requestid r.requestid = true
    · simp [hr, ridLt_trans hxy hr]
    · simp [Bool.eq_false_iff.mpr hr]

theorem collectAfter_eq_cursorTail (store : List Request) (k : String)
    (f : List Status) (n : Nat) (hM : (matching store k f).Pairwise reqLT) :
    ∀ (fuel : Nat) (c : Option String),
      (cursorTail c (matching store k f)).length ≤ fuel →
      collectAfter store k f n fuel c = cursorTail c (matching store k f) := by
  intro fuel
  induction fuel with
  | zero =>
    intro c hlen
    exact (List.eq_nil_of_length_eq_zero (Nat.le_zero.mp hlen)).symm
  | succ fuel ih =>
    intro c hlen
    rw [collectAfter, listRequests_afterQuery]
    rcases Nat.exists_eq_succ_of_ne_zero (Nat.pos_iff_ne_zero.mp (pageLimit_pos n))
      with ⟨L, hL⟩
    cases hmm : cursorTail c (matching store k f) with
    | nil => simp
    | cons p ps =>
      rw [hmm] at hlen
      rw [hL, List.take_succ_cons]
      show (match (p :: List.take L ps).getLast? with
          | none => ([] : List Request)
          | some last =>
            (p :: List.take L ps) ++ collectAfter store k f n fuel (some last.requestid)) =
        p :: ps
      rw [List.getLast?_eq_getLast (p :: List.take L ps) (List.cons_ne_nil _ _)]
      show (p :: List.take L ps) ++
          collectAfter store k f n fuel
            (some ((p :: List.take L ps).getLast (List.cons_ne_nil _ _)).requestid) =
          p :: ps
      have hy : ((cursorTail c (matching store k f)).take (L + 1)).getLast? =
          some ((p :: List.take L ps).getLast (List.cons_ne_nil _ _)) := by
        rw [hmm, List.take_succ_cons]
        exact List.getLast?_eq_getLast _ _
      have htail := cursorTail_getLast_take hM (L + 1) hy
      rw [hmm, List.drop_succ_cons] at htail
      have hlen' : (cursorTail
          (some ((p :: List.take L ps).getLast (List.cons_ne_nil _ _)).requestid)
          (matching store k f)).length ≤ fuel := by
        rw [htail, List.length_drop]
        simp only [List.length_cons] at hlen
        omega
      rw [ih _ hlen', htail, List.cons_append, List.take_append_drop]

theorem statusMatch_nil (r : Request) : statusMatch [] r = true := rfl

theorem matching_statusFilter {store : List Request} (hn : nodupPairs store)
    (k : String) (f : List Status) :
    (matching store k []).filter (statusMatch f) = matching store k f := by
  have hperm : ((matching store k []).filter (statusMatch f)).Perm
      ((store.filter (fun r => r.key == k)).filter (statusMatch f)) := by
    refine List.Perm.trans (List.Perm.filter _ (matching_perm store k [])) ?_
    rw [List.filter_eq_self.mpr (fun r _ => statusMatch_nil r)]
  have hperm2 : ((matching store k []).filter (statusMatch f)).Perm (matching store k f) :=
    hperm.trans (matching_perm store k f).symm
  refine @List.eq_of_perm_of_sorted Request reqLT _ _ _ hperm2 ?_ ?_
  · exact List.Pairwise.sublist (List.filter_sublist _) (matching_sorted hn k [])
  · exact matching_sorted hn k f

/-! ### The paginator claims -/

/-- C3: for every key and stored requests, `ListRequests` with `After = X`
returns the next `Limit` requests with identifier strictly greater than
`X` (matching the status filter) in ascending order, and concatenating
successive pages obtained by feeding the last returned identifier as the
next cursor reproduces the full ascending matching sequence with no
duplicates and no gaps. -/
theorem c3_after_pagination (store : List Request) (k : String) (f : List Status)
    (n : Nat) (x : String) (page : List Request) (fuel : Nat)
    (hn : nodupPairs store)
    (hpage : ListRequests store k (afterQuery f n (some x)) = .ok page)
    (hfuel : (matching store k f).length ≤ fuel) :
    (∃ rest, (matching store k f).filter (fun r => ridLt x r.requestid) = page ++ rest) ∧
    page.length =
      min (pageLimit n) ((matching store k f).filter (fun r => ridLt x r.requestid)).length ∧
    page.Pairwise reqLT ∧
    (∀ r ∈ page, ridLt x r.requestid = true) ∧
    collectAfter store k f n fuel none = matching store k f := by
  rw [listRequests_afterQuery] at hpage
  have hpage' : page =
      ((matching store k f).filter (fun r => ridLt x r.requestid)).take (pageLimit n) := by
    have := Except.ok.inj hpage
    exact this.symm
  subst hpage'
  refine ⟨⟨_, (List.take_append_drop _ _).symm⟩, List.length_take _ _, ?_, ?_, ?_⟩
  · exact List.Pairwise.sublist
      (List.Sublist.trans (List.take_sublist _ _) (List.filter_sublist _))
      (matching_sorted hn k f)
  · intro r hr
    exact @List.of_mem_filter Request (fun r => ridLt x r.requestid) r (matching store k f)
      (List.take_subset _ _ hr)
  · exact collectAfter_eq_cursorTail store k f n (matching_sorted hn k f) fuel none hfuel

/-- C4: for every key and cursor `X`, `ListRequests` with `Before = X`
returns the `Limit` matching requests with identifier strictly below `X`
that are closest to `X`, in descending order, and reversing such a page
yields the contiguous ascending slice immediately preceding the cursor. -/
theorem c4_before_page (store : List Request) (k : String) (f : List Status)
    (n : Nat) (x : String) (page : List Request)
    (hn : nodupPairs store)
    (hpage : ListRequests store k { status := f, before := some x, after := none,
                                    limit := n } = .ok page) :
    page.reverse = ((matching store k f).filter (fun r => ridLt r.requestid x)).drop
      (((matching store k f).filter (fun r => ridLt r.requestid x)).length - pageLimit n) ∧
    (matching store k f).filter (fun r => ridLt r.requestid x) =
      ((matching store k f).filter (fun r => ridLt r.requestid x)).take
        (((matching store k f).filter (fun r => ridLt r.requestid x)).length - pageLimit n) ++
      page.reverse ∧
    page.Pairwise (fun a b => reqLT b a) ∧
    (∀ r ∈ page, ridLt r.requestid x = true) := by
  have hpage' : page =
      (((matching store k f).filter (fun r => ridLt r.requestid x)).reverse).take
        (pageLimit n) := (Except.ok.inj hpage).symm
  subst hpage'
  rw [List.take_reverse, List.reverse_reverse]
  refine ⟨rfl, (List.take_append_drop _ _).symm, ?_, ?_⟩
  · rw [List.pairwise_reverse]
    exact List.Pairwise.sublist
      (List.Sublist.trans (List.drop_sublist _ _) (List.filter_sublist _))
      (matching_sorted hn k f)
  · intro r hr
    rw [List.mem_reverse] at hr
    exact @List.of_mem_filter Request (fun r => ridLt r.requestid x) r (matching store k f)
      (List.Sublist.subset (List.drop_sublist _ _) hr)

/-- C5: for every key, `ListRequests` with no cursor and `Limit = 0`
returns the 10 oldest matching requests ascending by identifier, and any
nonzero `Limit` caps the result length. -/
theorem c5_default_limit (store : List Request) (k : String) (f : List Status)
    (page : List Request) (hn : nodupPairs store)
    (hpage : ListRequests store k { status := f, before := none, after := none,
                                    limit := 0 } = .ok page) :
    (∃ rest, matching store k f = page ++ rest) ∧
    page.length = min 10 (matching store k f).length ∧
    page.Pairwise reqLT ∧
    (∀ (q : Query) (page' : List Request), ListRequests store k q = .ok page' →
      q.limit ≠ 0 → page'.length ≤ q.limit) := by
  have hpage' : page = (matching store k f).take 10 := (Except.ok.inj hpage).symm
  subst hpage'
  refine ⟨⟨_, (List.take_append_drop _ _).symm⟩, List.length_take _ _, ?_, ?_⟩
  · exact List.Pairwise.sublist (List.take_sublist _ _) (matching_sorted hn k f)
  · intro q page' hq hq0
    have hL : pageLimit q.limit = q.limit := by unfold pageLimit; simp [hq0]
    rcases q with ⟨f', b, a, m⟩
    cases b <;> cases a <;> simp only [ListRequests] at hq
    · rw [← Except.ok.inj hq, hL]
      exact List.length_take_le _ _
    · rw [← Except.ok.inj hq, hL]
      exact List.length_take_le _ _
    · rw [← Except.ok.inj hq, hL]
      exact List.length_take_le _ _
    · cases hq

/-- C6: a non-empty status filter restricts the matched set but never
reorders it: the returned page is a subsequence of the unfiltered
ascending sequence, contains only requests whose status is in the filter,
and pagination applies after filtering. -/
theorem c6_status_filter (store : List Request) (k : String) (f : List Status)
    (b a : Option String) (n : Nat) (page : List Request)
    (hn : nodupPairs store) (hf : f ≠ [])
    (hpage : ListRequests store k { status := f, before := b, after := a,
                                    limit := n } = .ok page) :
    (∀ r ∈ page, f.contains r.status = true) ∧
    (b = none →
      page.Sublist (matching store k []) ∧ page.Pairwise reqLT ∧
      ∃ rest, cursorTail a ((matching store k []).filter (statusMatch f)) =
        page ++ rest) ∧
    (∀ x, b = some x →
      page.Sublist ((matching store k []).reverse) ∧
      page.Pairwise (fun r₁ r₂ => reqLT r₂ r₁) ∧
      ∃ rest, (((matching store k []).filter (statusMatch f)).filter
        (fun r => ridLt r.requestid x)).reverse = page ++ rest) := by
  have hms := matching_statusFilter hn k f
  have hstat : ∀ r ∈ matching store k f, f.contains r.status = true := by
    intro r hr
    have hsm := (matching_key_status hr).2.2
    unfold statusMatch at hsm
    rcases Bool.or_eq_true_iff.mp hsm with he | hc
    · exact absurd (List.isEmpty_iff.mp he) hf
    · exact hc
  cases b with
  | some x =>
    cases a with
    | some y => cases hpage
    | none =>
      have hpage' : page = (((matching store k f).filter
          (fun r => ridLt r.requestid x)).reverse).take (pageLimit n) :=
        (Except.ok.inj hpage).symm
      subst hpage'
      refine ⟨?_, ?_, ?_⟩
      · intro r hr
        have hr1 : r ∈ ((matching store k f).filter
            (fun r => ridLt r.requestid x)).reverse := List.take_subset _ _ hr
        rw [List.mem_reverse] at hr1
        exact hstat r (List.mem_of_mem_filter hr1)
      · intro hb
        simp at hb
      · intro x' hx'
        cases hx'
        refine ⟨?_, ?_, ?_⟩
        · refine List.Sublist.trans (List.take_sublist _ _) ?_
          refine List.reverse_sublist.mpr ?_
          refine List.Sublist.trans (List.filter_sublist _) ?_
          rw [← hms]
          exact List.filter_sublist _
        · refine List.Pairwise.sublist (List.take_sublist _ _) ?_
          rw [List.pairwise_reverse]
          exact List.Pairwise.sublist (List.filter_sublist _) (matching_sorted hn k f)
        · rw [hms]
          exact ⟨_, (List.take_append_drop _ _).symm⟩
  | none =>
    cases a with
    | none =>
      have hpage' : page = (matching store k f).take (pageLimit n) :=
        (Except.ok.inj hpage).symm
      subst hpage'
      refine ⟨?_, ?_, ?_⟩
      · intro r hr
        exact hstat r (List.take_subset _ _ hr)
      · intro _
        refine ⟨?_, ?_, ?_⟩
        · rw [← hms]
          exact (List.take_sublist _ _).trans (List.filter_sublist _)
        · exact List.Pairwise.sublist (List.take_sublist _ _) (matching_sorted hn k f)
        · show ∃ rest, (matching store k []).filter (statusMatch f) =
            (matching store k f).take (pageLimit n) ++ rest
          rw [hms]
          exact ⟨_, (List.take_append_drop _ _).symm⟩
      · intro x hx
        simp at hx
    | some y =>
      have hpage' : page = ((matching store k f).filter
          (fun r => ridLt y r.requestid)).take (pageLimit n) :=
        (Except.ok.inj hpage).symm
      subst hpage'
      refine ⟨?_, ?_, ?_⟩
      · intro r hr
        exact hstat r (List.mem_of_mem_filter (List.take_subset _ _ hr))
      · intro _
        refine ⟨?_, ?_, ?_⟩
        · rw [← hms]
          exact (List.take_sublist _ _).trans
            ((List.filter_sublist _).trans (List.filter_sublist _))
        · exact List.Pairwise.sublist
            ((List.take_sublist _ _).trans (List.filter_sublist _))
            (matching_sorted hn k f)
        · show ∃ rest, ((matching store k []).filter (statusMatch f)).filter
            (fun r => ridLt y r.requestid) =
            ((matching store k f).filter (fun r => ridLt y r.requestid)).take
              (pageLimit n) ++ rest
          rw [hms]
          exact ⟨_, (List.take_append_drop _ _).symm⟩
      · intro x hx
        simp at hx

/-- C7: supplying both `Before` and `After` always fails with
`InvalidQuery`, regardless of the other query fields and of whether the
cursor values correspond to stored identifiers. -/
theorem c7_both_cursors (store : List Request) (k : String) (q : Query)
    (hb : q.before.isSome = true) (ha : q.after.isSome = true) :
    ListRequests store k q = .error .invalidQuery := by
  rcases q with ⟨f, b, a, n⟩
  cases b with
  | none => cases hb
  | some xb =>
    cases a with
    | none => cases ha
    | some xa => rfl

/-- C9: after a successful `RemoveRequest` the same `(Key, RequestID)` is
`NotFound` by `GetRequest`; `GetRequest` and `RemoveRequest` on an address
that is not stored also fail with `NotFound`. -/
theorem c9_remove_notFound (store : List Request) (k i : String)
    (hn : nodupPairs store) :
    (∀ store', RemoveRequest store k i = .ok store' →
      GetRequest store' k i = .error .notFound) ∧
    ((∀ r ∈ store, ¬(r.key = k ∧ r.requestid = i)) →
      GetRequest store k i = .error .notFound ∧
      RemoveRequest store k i = .error .notFound) := by
  constructor
  · intro store' hrm
    unfold RemoveRequest at hrm
    split at hrm
    case isFalse => cases hrm
    case isTrue hfound =>
      rcases Option.isSome_iff_exists.mp hfound with ⟨r, hr⟩
      have hrmem := List.mem_of_find?_eq_some hr
      have hrp := List.find?_some hr
      obtain ⟨a, l₁, l₂, hl₁, hpa, hsplit, herase⟩ :=
        @List.exists_of_eraseP Request (fun r => r.key == k && r.requestid == i)
          store r hrmem hrp
      have hstore' : store' = l₁ ++ l₂ := by
        rw [← herase]
        exact (Except.ok.inj hrm).symm
      have hpairA : a.key = k ∧ a.requestid = i := by
        simp only [Bool.and_eq_true, beq_iff_eq] at hpa
        exact hpa
      have hl₂ : ∀ b ∈ l₂, ¬(b.key == k && b.requestid == i) = true := by
        intro b hb hpb
        have hpairB : b.key = k ∧ b.requestid = i := by
          simp only [Bool.and_eq_true, beq_iff_eq] at hpb
          exact hpb
        have hnd : ((l₁ ++ a :: l₂).map pairOf).Nodup := by
          rw [← hsplit]; exact hn
        rw [List.map_append, List.map_cons] at hnd
        have hnd2 := List.Nodup.of_append_right hnd
        have : pairOf a ∉ l₂.map pairOf := (List.nodup_cons.mp hnd2).1
        refine this ?_
        have : pairOf b = pairOf a := by
          simp [pairOf, hpairA.1, hpairA.2, hpairB.1, hpairB.2]
        rw [← this]
        exact List.mem_map_of_mem pairOf hb
      unfold GetRequest
      rw [hstore']
      have : List.find? (fun r => r.key == k && r.requestid == i) (l₁ ++ l₂) = none := by
        rw [List.find?_eq_none]
        intro x hx
        rcases List.mem_append.mp hx with hx | hx
        · exact hl₁ x hx
        · exact hl₂ x hx
      rw [this]
  · intro habs
    have hnone : List.find? (fun r => r.key == k && r.requestid == i) store = none := by
      rw [List.find?_eq_none]
      intro x hx hpx
      refine habs x hx ?_
      simp only [Bool.and_eq_true, beq_iff_eq] at hpx
      exact hpx
    constructor
    · unfold GetRequest; rw [hnone]
    · unfold RemoveRequest; rw [hnone]; rfl

/-! ### Concrete witnesses for the paginator claims -/

instance (store : List Request) : Decidable (nodupPairs store) :=
  inferInstanceAs (Decidable ((store.map pairOf).Nodup))

instance {ε α : Type} [DecidableEq ε] [DecidableEq α] : DecidableEq (Except ε α) := by
  intro a b
  cases a with
  | error e =>
    cases b with
    | error e' =>
      exact if h : e = e' then .isTrue (by rw [h]) else
        .isFalse (by intro hc; cases hc; exact h rfl)
    | ok v => exact .isFalse (by intro hc; cases hc)
  | ok v =>
    cases b with
    | error e' => exact .isFalse (by intro hc; cases hc)
    | ok v' =>
      exact if h : v = v' then .isTrue (by rw [h]) else
        .isFalse (by intro hc; cases hc; exact h rfl)

/-- A concrete request used by the witnesses. -/
def wr (i : String) (st : Status) : Request :=
  { key := "k", requestid := i, status := st, pinCid := "cid", created := 0, updated := 0 }

/-- A concrete three-request store used by the witnesses. -/
def wstore : List Request := [wr "1" .pinned, wr "2" .failed, wr "3" .pinned]

theorem c3_after_pagination_witness :
    (∃ rest, (matching wstore "k" []).filter (fun r => ridLt "1" r.requestid) =
      [wr "2" .failed, wr "3" .pinned] ++ rest) ∧
    ([wr "2" .failed, wr "3" .pinned] : List Request).length =
      min (pageLimit 0)
        ((matching wstore "k" []).filter (fun r => ridLt "1" r.requestid)).length ∧
    ([wr "2" .failed, wr "3" .pinned] : List Request).Pairwise reqLT ∧
    (∀ r ∈ ([wr "2" .failed, wr "3" .pinned] : List Request), ridLt "1" r.requestid = true) ∧
    collectAfter wstore "k" [] 0 3 none = matching wstore "k" [] :=
  c3_after_pagination wstore "k" [] 0 "1" [wr "2" .failed, wr "3" .pinned] 3
    (by decide) (by decide) (by decide)

theorem c4_before_page_witness :
    ([wr "2" .failed, wr "1" .pinned] : List Request).reverse =
      ((matching wstore "k" []).filter (fun r => ridLt r.requestid "3")).drop
        (((matching wstore "k" []).filter (fun r => ridLt r.requestid "3")).length -
          pageLimit 0) ∧
    (matching wstore "k" []).filter (fun r => ridLt r.requestid "3") =
      ((matching wstore "k" []).filter (fun r => ridLt r.requestid "3")).take
        (((matching wstore "k" []).filter (fun r => ridLt r.requestid "3")).length -
          pageLimit 0) ++
      ([wr "2" .failed, wr "1" .pinned] : List Request).reverse ∧
    ([wr "2" .failed, wr "1" .pinned] : List Request).Pairwise (fun a b => reqLT b a) ∧
    (∀ r ∈ ([wr "2" .failed, wr "1" .pinned] : List Request), ridLt r.requestid "3" = true) :=
  c4_before_page wstore "k" [] 0 "3" [wr "2" .failed, wr "1" .pinned]
    (by decide) (by decide)

theorem c5_default_limit_witness :
    (∃ rest, matching wstore "k" [] =
      [wr "1" .pinned, wr "2" .failed, wr "3" .pinned] ++ rest) ∧
    ([wr "1" .pinned, wr "2" .failed, wr "3" .pinned] : List Request).length =
      min 10 (matching wstore "k" []).length ∧
    ([wr "1" .pinned, wr "2" .failed, wr "3" .pinned] : List Request).Pairwise reqLT ∧
    (∀ (q : Query) (page' : List Request), ListRequests wstore "k" q = .ok page' →
      q.limit ≠ 0 → page'.length ≤ q.limit) :=
  c5_default_limit wstore "k" [] [wr "1" .pinned, wr "2" .failed, wr "3" .pinned]
    (by decide) (by decide)

theorem c6_status_filter_witness :
    (∀ r ∈ ([wr "1" .pinned] : List Request),
      ([Status.pinned] : List Status).contains r.status = true) ∧
    ((some "3" : Option String) = none →
      ([wr "1" .pinned] : List Request).Sublist (matching wstore "k" []) ∧
      ([wr "1" .pinned] : List Request).Pairwise reqLT ∧
      ∃ rest, cursorTail none ((matching wstore "k" []).filter
        (statusMatch [Status.pinned])) = [wr "1" .pinned] ++ rest) ∧
    (∀ x, (some "3" : Option String) = some x →
      ([wr "1" .pinned] : List Request).Sublist ((matching wstore "k" []).reverse) ∧
      ([wr "1" .pinned] : List Request).Pairwise (fun r₁ r₂ => reqLT r₂ r₁) ∧
      ∃ rest, (((matching wstore "k" []).filter (statusMatch [Status.pinned])).filter
        (fun r => ridLt r.requestid x)).reverse = [wr "1" .pinned] ++ rest) :=
  c6_status_filter wstore "k" [Status.pinned] (some "3") none 0 [wr "1" .pinned]
    (by decide) (by decide) (by decide)

theorem c7_both_cursors_witness :
    ListRequests wstore "k"
      { status := [], before := some "b", after := some "a", limit := 0 } =
      .error .invalidQuery :=
  c7_both_cursors wstore "k"
    { status := [], before := some "b", after := some "a", limit := 0 } rfl rfl

theorem c9_remove_notFound_witness :
    (∀ store', RemoveRequest wstore "k" "2" = .ok store' →
      GetRequest store' "k" "2" = .error .notFound) ∧
    ((∀ r ∈ wstore, ¬(r.key = "k" ∧ r.requestid = "2")) →
      GetRequest wstore "k" "2" = .error .notFound ∧
      RemoveRequest wstore "k" "2" = .error .notFound) :=
  c9_remove_notFound wstore "k" "2" (by decide)

/-! ### The identifier claim -/

/-- C8: `NewIDFromTime` is strictly monotone in its timestamp with respect
to the lexicographic order on identifiers (so identifier order is
consistent with creation order), identifiers generated in the same clock
tick with distinct entropy are distinct, and the lexicographic order is
total on distinct identifiers. -/
theorem c8_id_order (t₁ t₂ : Nat) (e₁ e₂ : List Nat)
    (h12 : t₁ < t₂) (hb : t₂ < 10 ^ idTimeWidth) :
    ridLt (NewIDFromTime t₁ e₁) (NewIDFromTime t₂ e₂) = true ∧
    NewIDFromTime t₁ e₁ ≠ NewIDFromTime t₂ e₂ ∧
    (∀ (t : Nat) (e e' : List Nat), (∀ d ∈ e, d < 10) → (∀ d ∈ e', d < 10) →
      e ≠ e' → NewIDFromTime t e ≠ NewIDFromTime t e') ∧
    (∀ a b : String, a ≠ b → ridLt a b = true ∨ ridLt b a = true) := by
  refine ⟨NewIDFromTime_mono e₁ e₂ h12 hb, NewIDFromTime_ne_of_time_lt e₁ e₂ h12 hb, ?_, ?_⟩
  · intro t e e' he he' hne
    exact NewIDFromTime_entropy_inj he he' hne
  · intro a b h
    exact ridLt_total h

/-! ### Worker pool / dispatcher

Modelled from the spec: the dispatch loop of package `pinning/queue`
(`AddRequest` persists a record in `Queued` state and signals the
dispatcher; the dispatcher, subject to `MaxConcurrency`, transitions the
globally-oldest queued request to `Pinning`, invokes the handler on it and
persists the terminal state).  Runs are modelled from a state in which the
requests have already been added; the nondeterministic small-step relation
`Step` covers every interleaving of admissions and completions.  The
handler is a boolean function on the request it receives: `true` stands
for a `nil` return, `false` for an error. -/

/-- Dispatcher state: the persisted store plus the in-flight handler
invocations (the workers' copies of the admitted requests). -/
structure QState where
  store : List Request
  running : List Request

/-- Persist a status transition on the record addressed by `(k, i)`,
updating its `UpdatedAt` timestamp. -/
def setStatus (store : List Request) (k i : String) (st : Status) (now : Nat) :
    List Request :=
  store.map fun r =>
    if r.key = k ∧ r.requestid = i then { r with status := st, updated := now } else r

/-- The globally-oldest `Queued` request: minimum request identifier
across all keys. -/
def oldestQueued (store : List Request) : Option Request :=
  match store.filter (fun r => r.status == Status.queued) with
  | [] => none
  | r :: rs => some (rs.foldl (fun m r' => if ridLt r'.requestid m.requestid then r' else m) r)

/-- One dispatcher transition with concurrency ceiling `M` and handler
`h`.  `dispatch` fires only when fewer than `M` invocations are running; it
persists `Pinning` on the globally-oldest queued request and hands that
record to a worker.  `complete` ends one in-flight invocation and persists
`Pinned` when the handler returned nil, `Failed` when it returned an
error. -/
inductive Step (M : Nat) (h : Request → Bool) : QState → QState → Prop
  | dispatch (s : QState) (r : Request) (now : Nat) :
      s.running.length < M →
      oldestQueued s.store = some r →
      Step M h s
        { store := setStatus s.store r.key r.requestid Status.pinning now,
          running := { r with status := Status.pinning, updated := now } :: s.running }
  | complete (s : QState) (rr : Request) (now : Nat) :
      rr ∈ s.running →
      Step M h s
        { store := setStatus s.store rr.key rr.requestid
            (if h rr then Status.pinned else Status.failed) now,
          running := s.running.erase rr }

/-- Reachability under the dispatcher's transitions. -/
def Reachable (M : Nat) (h : Request → Bool) : QState → QState → Prop :=
  Relation.ReflTransGen (Step M h)

/-- The dispatcher state right after all requests have been added: every
record persisted (in `Queued` state, as `AddRequest` leaves it) and no
handler invocation running. -/
def initState (store : List Request) : QState := { store := store, running := [] }

/-- Number of stored requests bearing a status. -/
def countStatus (st : Status) (store : List Request) : Nat :=
  store.countP (fun r => r.status == st)

/-- All handler invocations have completed: nothing is queued or
pinning. -/
def Complete (s : QState) : Prop :=
  countStatus .queued s.store = 0 ∧ countStatus .pinning s.store = 0

/-- How a record evolves from the request supplied at `AddRequest` time:
key, identifier, payload and creation time never change, and the status is
queued, pinning, or the terminal status determined by the handler's
verdict on the original request. -/
def tracks (h : Request → Bool) (r₀ r : Request) : Prop :=
  r.key = r₀.key ∧ r.requestid = r₀.requestid ∧ r.pinCid = r₀.pinCid ∧
  r.created = r₀.created ∧
  (r.status = Status.queued ∨ r.status = Status.pinning ∨
    r.status = (if h r₀ then Status.pinned else Status.failed))

/-- Reachability invariant of the dispatcher: unique addresses in the
store and in the pool, the pool within the concurrency ceiling, every
in-flight invocation backed by a `Pinning` record with the same address
and payload, and every `Pinning` record backed by an in-flight
invocation. -/
structure Inv (M : Nat) (s : QState) : Prop where
  nodupStore : nodupPairs s.store
  nodupRun : nodupPairs s.running
  runBound : s.running.length ≤ M
  runStore : ∀ rr ∈ s.running, ∃ rs ∈ s.store, rs.key = rr.key ∧
    rs.requestid = rr.requestid ∧ rs.pinCid = rr.pinCid ∧ rs.status = Status.pinning
  pinningRun : ∀ rs ∈ s.store, rs.status = Status.pinning →
    ∃ rr ∈ s.running, rr.key = rs.key ∧ rr.requestid = rs.requestid

/-! ### Basic facts about the dispatcher's primitives -/

theorem pairOf_eq_iff {a b : Request} :
    pairOf a = pairOf b ↔ a.key = b.key ∧ a.requestid = b.requestid := by
  unfold pairOf
  constructor
  · intro h
    exact ⟨congrArg Prod.fst h, congrArg Prod.snd h⟩
  · rintro ⟨h₁, h₂⟩
    rw [h₁, h₂]

theorem mem_unique_of_pair {store : List Request} (hn : nodupPairs store)
    {a b : Request} (ha : a ∈ store) (hb : b ∈ store)
    (hp : pairOf a = pairOf b) : a = b :=
  List.inj_on_of_nodup_map hn ha hb hp

theorem setStatus_map_pairOf (store : List Request) (k i : String) (st : Status)
    (now : Nat) : (setStatus store k i st now).map pairOf = store.map pairOf := by
  unfold setStatus
  rw [List.map_map]
  refine List.map_congr_left ?_
  intro r _
  by_cases hc : r.key = k ∧ r.requestid = i <;> simp [Function.comp, pairOf, hc]

theorem nodupPairs_setStatus {store : List Request} (hn : nodupPairs store)
    (k i : String) (st : Status) (now : Nat) :
    nodupPairs (setStatus store k i st now) := by
  unfold nodupPairs
  rw [setStatus_map_pairOf]
  exact hn

theorem mem_setStatus_of_ne {store : List Request} {r : Request} (hr : r ∈ store)
    {k i : String} (hne : ¬(r.key = k ∧ r.requestid = i)) (st : Status) (now : Nat) :
    r ∈ setStatus store k i st now := by
  unfold setStatus
  have := List.mem_map_of_mem
    (fun r => if r.key = k ∧ r.requestid = i then { r with status := st, updated := now }
      else r) hr
  simpa [hne] using this

theorem updated_mem_setStatus {store : List Request} {r : Request} (hr : r ∈ store)
    (st : Status) (now : Nat) :
    ({ r with status := st, updated := now }) ∈ setStatus store r.key r.requestid st now := by
  unfold setStatus
  have := List.mem_map_of_mem
    (fun x => if x.key = r.key ∧ x.requestid = r.requestid then
      { x with status := st, updated := now } else x) hr
  simpa using this

theorem mem_setStatus_elim {store : List Request} {x : Request} {k i : String}
    {st : Status} {now : Nat} (hx : x ∈ setStatus store k i st now) :
    ∃ r ∈ store, (r.key = k ∧ r.requestid = i ∧ x = { r with status := st, updated := now }) ∨
      (¬(r.key = k ∧ r.requestid = i) ∧ x = r) := by
  unfold setStatus at hx
  rcases List.mem_map.mp hx with ⟨r, hr, hxr⟩
  by_cases hc : r.key = k ∧ r.requestid = i
  · exact ⟨r, hr, Or.inl ⟨hc.1, hc.2, by rw [← hxr]; simp [hc]⟩⟩
  · exact ⟨r, hr, Or.inr ⟨hc, by rw [← hxr]; simp [hc]⟩⟩

theorem foldl_min_mem (g : Request → Request → Request)
    (hg : ∀ m r, g m r = m ∨ g m r = r) :
    ∀ (xs : List Request) (acc : Request), xs.foldl g acc ∈ acc :: xs := by
  intro xs
  induction xs with
  | nil => intro acc; simp
  | cons x xs ih =>
    intro acc
    have h1 := ih (g acc x)
    rw [List.foldl_cons]
    rcases List.mem_cons.mp h1 with h2 | h2
    · rw [h2]
      rcases hg acc x with h3 | h3 <;> rw [h3] <;> simp
    · exact List.mem_cons_of_mem _ (List.mem_cons_of_mem _ h2)

theorem pick_cases (m r' : Request) :
    (if ridLt r'.requestid m.requestid then r' else m) = m ∨
    (if ridLt r'.requestid m.requestid then r' else m) = r' := by
  by_cases hc : ridLt r'.requestid m.requestid = true
  · rw [if_pos hc]; right; rfl
  · rw [if_neg hc]; left; rfl

theorem oldestQueued_mem {store : List Request} {r : Request}
    (h : oldestQueued store = some r) : r ∈ store ∧ r.status = Status.queued := by
  unfold oldestQueued at h
  cases hf : store.filter (fun r => r.status == Status.queued) with
  | nil => rw [hf] at h; cases h
  | cons x xs =>
    rw [hf] at h
    have hmem := foldl_min_mem
      (fun m r' => if ridLt r'.requestid m.requestid then r' else m)
      pick_cases xs x
    rw [Option.some_inj.mp h] at hmem
    have hr : r ∈ store.filter (fun r => r.status == Status.queued) := by
      rw [hf]
      exact hmem
    rcases List.mem_filter.mp hr with ⟨h1, h2⟩
    exact ⟨h1, by simpa using h2⟩

theorem oldestQueued_isSome {store : List Request} {r : Request} (hr : r ∈ store)
    (hq : r.status = Status.queued) : ∃ r', oldestQueued store = some r' := by
  unfold oldestQueued
  cases hf : store.filter (fun r => r.status == Status.queued) with
  | nil =>
    exfalso
    have : r ∈ store.filter (fun r => r.status == Status.queued) :=
      List.mem_filter.mpr ⟨hr, by simp [hq]⟩
    rw [hf] at this
    cases this
  | cons x xs => exact ⟨_, rfl⟩

/-! ### Pointwise transfer lemmas for `Forall₂` -/

theorem forall₂_map_right {R : Request → Request → Prop} {f : Request → Request} :
    ∀ {l₁ l₂ : List Request}, List.Forall₂ R l₁ l₂ →
      (∀ r₀ r, r ∈ l₂ → R r₀ r → R r₀ (f r)) →
      List.Forall₂ R l₁ (l₂.map f) := by
  intro l₁ l₂ h
  induction h with
  | nil => intro _; exact .nil
  | cons hR _ ih =>
    intro hf
    refine .cons (hf _ _ (by simp) hR) (ih ?_)
    intro r₀ r hr hR'
    exact hf r₀ r (by simp [hr]) hR'

theorem forall₂_imp_mem {R S : Request → Request → Prop} :
    ∀ {l₁ l₂ : List Request}, List.Forall₂ R l₁ l₂ →
      (∀ r₀ r, r ∈ l₂ → R r₀ r → S r₀ r) → List.Forall₂ S l₁ l₂ := by
  intro l₁ l₂ h
  induction h with
  | nil => intro _; exact .nil
  | cons hR _ ih =>
    intro hf
    refine .cons (hf _ _ (by simp) hR) (ih ?_)
    intro r₀ r hr hR'
    exact hf r₀ r (by simp [hr]) hR'

theorem forall₂_mem_right {R : Request → Request → Prop} :
    ∀ {l₁ l₂ : List Request}, List.Forall₂ R l₁ l₂ →
      ∀ b ∈ l₂, ∃ a ∈ l₁, R a b := by
  intro l₁ l₂ h
  induction h with
  | nil => intro b hb; cases hb
  | cons hR _ ih =>
    intro b hb
    rcases List.mem_cons.mp hb with rfl | hb'
    · exact ⟨_, by simp, hR⟩
    · rcases ih b hb' with ⟨a, ha, hab⟩
      exact ⟨a, by simp [ha], hab⟩

theorem forall₂_mem_left {R : Request → Request → Prop} :
    ∀ {l₁ l₂ : List Request}, List.Forall₂ R l₁ l₂ →
      ∀ a ∈ l₁, ∃ b ∈ l₂, R a b := by
  intro l₁ l₂ h
  induction h with
  | nil => intro a ha; cases ha
  | cons hR _ ih =>
    intro a ha
    rcases List.mem_cons.mp ha with rfl | ha'
    · exact ⟨_, by simp, hR⟩
    · rcases ih a ha' with ⟨b, hb, hab⟩
      exact ⟨b, by simp [hb], hab⟩

theorem forall₂_countP {R : Request → Request → Prop} (p q : Request → Bool) :
    ∀ {l₁ l₂ : List Request}, List.Forall₂ R l₁ l₂ →
      (∀ a b, R a b → p a = q b) → l₁.countP p = l₂.countP q := by
  intro l₁ l₂ h
  induction h with
  | nil => intro _; rfl
  | cons hR _ ih =>
    intro hf
    rw [List.countP_cons, List.countP_cons, ih hf, hf _ _ hR]

/-! ### Preservation of the dispatcher invariant -/

theorem inv_step {M : Nat} {h : Request → Bool} {s s' : QState}
    (hstep : Step M h s s') (hinv : Inv M s) : Inv M s' := by
  cases hstep with
  | dispatch r now hlt hold =>
    obtain ⟨hrmem, hrq⟩ := oldestQueued_mem hold
    refine ⟨nodupPairs_setStatus hinv.nodupStore _ _ _ _, ?_, ?_, ?_, ?_⟩
    · show nodupPairs (_ :: s.running)
      unfold nodupPairs
      rw [List.map_cons, List.nodup_cons]
      refine ⟨?_, hinv.nodupRun⟩
      intro hc
      rcases List.mem_map.mp hc with ⟨rr, hrr, hpair⟩
      rcases hinv.runStore rr hrr with ⟨rs, hrs, hk, hi, _, hps⟩
      have : rs = r := by
        refine mem_unique_of_pair hinv.nodupStore hrs hrmem ?_
        rw [pairOf_eq_iff]
        have h2 := pairOf_eq_iff.mp hpair
        exact ⟨hk.trans h2.1, hi.trans h2.2⟩
      rw [this, hrq] at hps
      cases hps
    · show (_ :: s.running).length ≤ M
      rw [List.length_cons]
      omega
    · intro rr' hmem'
      rcases List.mem_cons.mp hmem' with rfl | hin
      · exact ⟨_, updated_mem_setStatus hrmem _ _, rfl, rfl, rfl, rfl⟩
      · rcases hinv.runStore rr' hin with ⟨rs, hrs, hk, hi, hp, hps⟩
        have hne : ¬(rs.key = r.key ∧ rs.requestid = r.requestid) := by
          rintro ⟨h1, h2⟩
          have : rs = r :=
            mem_unique_of_pair hinv.nodupStore hrs hrmem (pairOf_eq_iff.mpr ⟨h1, h2⟩)
          rw [this, hrq] at hps
          cases hps
        exact ⟨rs, mem_setStatus_of_ne hrs hne _ _, hk, hi, hp, hps⟩
    · intro rs₂ hmem₂ hst₂
      rcases mem_setStatus_elim hmem₂ with ⟨rx, hrx, hcase⟩
      rcases hcase with ⟨hk, hi, heq⟩ | ⟨hne, heq⟩
      · refine ⟨_, List.mem_cons_self _ _, ?_, ?_⟩
        · show r.key = rs₂.key
          rw [heq, hk]
        · show r.requestid = rs₂.requestid
          rw [heq, hi]
      · subst heq
        rcases hinv.pinningRun rs₂ hrx hst₂ with ⟨rr₂, hrr₂, hk₂, hi₂⟩
        exact ⟨rr₂, List.mem_cons_of_mem _ hrr₂, hk₂, hi₂⟩
  | complete rr now hmem =>
    have hrunnd : s.running.Nodup := List.Nodup.of_map pairOf hinv.nodupRun
    refine ⟨nodupPairs_setStatus hinv.nodupStore _ _ _ _, ?_, ?_, ?_, ?_⟩
    · exact List.Nodup.sublist (List.Sublist.map pairOf (List.erase_sublist _ _))
        hinv.nodupRun
    · exact le_trans (List.Sublist.length_le (List.erase_sublist _ _)) hinv.runBound
    · intro rr' hmem'
      have hsplit := (hrunnd.mem_erase_iff.mp hmem')
      have hne' : rr' ≠ rr := hsplit.1
      have hin' : rr' ∈ s.running := hsplit.2
      have hpne : pairOf rr' ≠ pairOf rr := by
        intro hc
        exact hne' (List.inj_on_of_nodup_map hinv.nodupRun hin' hmem hc)
      rcases hinv.runStore rr' hin' with ⟨rs', hrs', hk, hi, hp, hps⟩
      have hne2 : ¬(rs'.key = rr.key ∧ rs'.requestid = rr.requestid) := by
        rintro ⟨h1, h2⟩
        refine hpne ?_
        rw [pairOf_eq_iff] at *
        exact ⟨hk.symm.trans h1, hi.symm.trans h2⟩
      exact ⟨rs', mem_setStatus_of_ne hrs' hne2 _ _, hk, hi, hp, hps⟩
    · intro rs₂ hmem₂ hst₂
      rcases mem_setStatus_elim hmem₂ with ⟨rx, hrx, hcase⟩
      rcases hcase with ⟨hk, hi, heq⟩ | ⟨hne, heq⟩
      · exfalso
        rw [heq] at hst₂
        by_cases hh : h rr = true <;> simp [hh] at hst₂
      · subst heq
        rcases hinv.pinningRun rs₂ hrx hst₂ with ⟨rr₂, hrr₂, hk₂, hi₂⟩
        have hne₂ : rr₂ ≠ rr := by
          intro hc
          subst hc
          exact hne ⟨hk₂.symm, hi₂.symm⟩
        exact ⟨rr₂, hrunnd.mem_erase_iff.mpr ⟨hne₂, hrr₂⟩, hk₂, hi₂⟩

theorem tracks_step {M : Nat} {h : Request → Bool} {init : List Request} {s s' : QState}
    (hpin : ∀ r₁ r₂ : Request, r₁.key = r₂.key → r₁.requestid = r₂.requestid →
      r₁.pinCid = r₂.pinCid → h r₁ = h r₂)
    (hstep : Step M h s s') (hinv : Inv M s)
    (htr : List.Forall₂ (tracks h) init s.store) :
    List.Forall₂ (tracks h) init s'.store := by
  cases hstep with
  | dispatch r now hlt hold =>
    show List.Forall₂ (tracks h) init (setStatus s.store r.key r.requestid _ _)
    unfold setStatus
    refine forall₂_map_right htr ?_
    intro r₀ rx _ htx
    by_cases hc : rx.key = r.key ∧ rx.requestid = r.requestid
    · rw [if_pos hc]
      exact ⟨htx.1, htx.2.1, htx.2.2.1, htx.2.2.2.1, Or.inr (Or.inl rfl)⟩
    · rw [if_neg hc]
      exact htx
  | complete rr now hmem =>
    show List.Forall₂ (tracks h) init (setStatus s.store rr.key rr.requestid _ _)
    unfold setStatus
    refine forall₂_map_right htr ?_
    intro r₀ rx hrx htx
    by_cases hc : rx.key = rr.key ∧ rx.requestid = rr.requestid
    · rw [if_pos hc]
      rcases hinv.runStore rr hmem with ⟨rs, hrs, hk, hi, hp, _⟩
      have hxs : rx = rs := by
        refine mem_unique_of_pair hinv.nodupStore hrx hrs ?_
        rw [pairOf_eq_iff]
        exact ⟨hc.1.trans hk.symm, hc.2.trans hi.symm⟩
      have hhr : h rr = h r₀ := by
        refine hpin rr r₀ ?_ ?_ ?_
        · rw [← hc.1.symm.trans htx.1]
        · rw [← hc.2.symm.trans htx.2.1]
        · rw [← hp, ← hxs, htx.2.2.1]
      refine ⟨htx.1, htx.2.1, htx.2.2.1, htx.2.2.2.1, Or.inr (Or.inr ?_)⟩
      show (if h rr then Status.pinned else Status.failed) = _
      rw [hhr]
    · rw [if_neg hc]
      exact htx

theorem inv_init (M : Nat) {init : List Request} (hn : nodupPairs init)
    (hq : ∀ r ∈ init, r.status = Status.queued) : Inv M (initState init) := by
  refine ⟨hn, ?_, ?_, ?_, ?_⟩
  · show nodupPairs ([] : List Request)
    simp [nodupPairs]
  · show ([] : List Request).length ≤ M
    simp
  · intro rr hrr
    cases hrr
  · intro rs hrs hps
    rw [hq rs hrs] at hps
    cases hps

theorem tracks_init (h : Request → Bool) {init : List Request}
    (hq : ∀ r ∈ init, r.status = Status.queued) :
    List.Forall₂ (tracks h) init init :=
  List.forall₂_same.mpr fun r hr => ⟨rfl, rfl, rfl, rfl, Or.inl (hq r hr)⟩

theorem reach_inv_core {M : Nat} {h : Request → Bool} {init : List Request} {s : QState}
    (hn : nodupPairs init) (hq : ∀ r ∈ init, r.status = Status.queued)
    (hreach : Reachable M h (initState init) s) : Inv M s := by
  induction hreach with
  | refl => exact inv_init M hn hq
  | tail _ hstep ih => exact inv_step hstep ih

theorem reach_inv {M : Nat} {h : Request → Bool} {init : List Request} {s : QState}
    (hpin : ∀ r₁ r₂ : Request, r₁.key = r₂.key → r₁.requestid = r₂.requestid →
      r₁.pinCid = r₂.pinCid → h r₁ = h r₂)
    (hn : nodupPairs init) (hq : ∀ r ∈ init, r.status = Status.queued)
    (hreach : Reachable M h (initState init) s) :
    Inv M s ∧ List.Forall₂ (tracks h) init s.store := by
  induction hreach with
  | refl => exact ⟨inv_init M hn hq, tracks_init h hq⟩
  | tail _ hstep ih => exact ⟨inv_step hstep ih.1, tracks_step hpin hstep ih.1 ih.2⟩

/-! ### The concurrency bound -/

/-- C2: in every reachable state of the dispatcher with concurrency
ceiling `M`, the number of requests in `Pinning` state across all keys
never exceeds `M`: the dispatcher admits a queued request only when fewer
than `M` handler invocations are running. -/
theorem c2_concurrency_bound (M : Nat) (h : Request → Bool) (init : List Request)
    (s : QState) (hn : nodupPairs init) (hq : ∀ r ∈ init, r.status = Status.queued)
    (hreach : Reachable M h (initState init) s) :
    countStatus Status.pinning s.store ≤ M := by
  have hinv := reach_inv_core hn hq hreach
  have h1 : countStatus Status.pinning s.store ≤ s.running.length := by
    rw [countStatus, List.countP_eq_length_filter]
    have hnd : ((s.store.filter (fun r => r.status == Status.pinning)).map pairOf).Nodup :=
      List.Nodup.sublist (List.Sublist.map pairOf (List.filter_sublist _)) hinv.nodupStore
    have hsubset : ((s.store.filter (fun r => r.status == Status.pinning)).map pairOf) ⊆
        s.running.map pairOf := by
      intro p hp
      rcases List.mem_map.mp hp with ⟨rs, hrs, hps⟩
      rcases List.mem_filter.mp hrs with ⟨hrs', hst⟩
      rcases hinv.pinningRun rs hrs' (by simpa using hst) with ⟨rr, hrr, hk, hi⟩
      rw [← hps]
      refine List.mem_map.mpr ⟨rr, hrr, ?_⟩
      rw [pairOf_eq_iff]
      exact ⟨hk, hi⟩
    have h2 := List.Subperm.length_le (List.Nodup.subperm hnd hsubset)
    simpa using h2
  exact le_trans h1 hinv.runBound

/-- A one-request queued store used by the dispatcher witnesses. -/
def c2store : List Request := [wr "1" .queued]

theorem c2_concurrency_bound_witness :
    countStatus Status.pinning (initState c2store).store ≤ 1 :=
  c2_concurrency_bound 1 (fun _ => true) c2store (initState c2store)
    (by decide) (by decide) Relation.ReflTransGen.refl

/-! ### Termination: every run can be driven to completion -/

theorem setStatus_decomp {l₁ l₂ : List Request} {rs : Request} {store : List Request}
    (hn : nodupPairs store) (hsplit : store = l₁ ++ rs :: l₂) (st : Status) (now : Nat) :
    setStatus store rs.key rs.requestid st now =
      l₁ ++ ({ rs with status := st, updated := now }) :: l₂ := by
  subst hsplit
  have hnd := hn
  unfold nodupPairs at hnd
  rw [List.map_append, List.map_cons] at hnd
  rcases List.nodup_append.mp hnd with ⟨h₁, h₂, hdisj⟩
  have hnotin₁ : ∀ x ∈ l₁, pairOf x ≠ pairOf rs := by
    intro x hx hc
    exact hdisj (List.mem_map_of_mem pairOf hx)
      (by rw [hc]; exact List.mem_cons_self _ _)
  have hnotin₂ : ∀ x ∈ l₂, pairOf x ≠ pairOf rs := by
    intro x hx hc
    exact (List.nodup_cons.mp h₂).1 (by rw [← hc]; exact List.mem_map_of_mem pairOf hx)
  unfold setStatus
  rw [List.map_append, List.map_cons]
  congr 1
  · refine (List.map_congr_left ?_).trans (List.map_id _)
    intro x hx
    have hne : ¬(x.key = rs.key ∧ x.requestid = rs.requestid) := by
      rintro ⟨hk, hi⟩
      exact hnotin₁ x hx (pairOf_eq_iff.mpr ⟨hk, hi⟩)
    rw [if_neg hne]
    rfl
  · congr 1
    · rw [if_pos ⟨rfl, rfl⟩]
    · refine (List.map_congr_left ?_).trans (List.map_id _)
      intro x hx
      have hne : ¬(x.key = rs.key ∧ x.requestid = rs.requestid) := by
        rintro ⟨hk, hi⟩
        exact hnotin₂ x hx (pairOf_eq_iff.mpr ⟨hk, hi⟩)
      rw [if_neg hne]
      rfl

theorem countStatus_split (st : Status) (l₁ l₂ : List Request) (x : Request) :
    countStatus st (l₁ ++ x :: l₂) =
      countStatus st l₁ + countStatus st l₂ + (if x.status = st then 1 else 0) := by
  unfold countStatus
  rw [List.countP_append, List.countP_cons]
  by_cases hc : x.status = st
  · simp [hc]
    omega
  · simp [hc, beq_iff_eq]

theorem exists_mem_of_countStatus_pos {st : Status} {store : List Request}
    (h : 0 < countStatus st store) : ∃ r ∈ store, r.status = st := by
  rcases List.countP_pos.mp h with ⟨r, hr, hb⟩
  exact ⟨r, hr, by simpa using hb⟩

theorem exists_complete {M : Nat} {h : Request → Bool} (hM : 1 ≤ M) :
    ∀ s : QState, Inv M s → ∃ t, Reachable M h s t ∧ Complete t := by
  have main : ∀ (n : Nat) (s : QState),
      2 * countStatus Status.queued s.store + countStatus Status.pinning s.store = n →
      Inv M s → ∃ t, Reachable M h s t ∧ Complete t := by
    intro n
    induction n using Nat.strong_induction_on with
    | _ n ih =>
      intro s hμ hinv
      by_cases hp0 : countStatus Status.pinning s.store = 0
      · by_cases hq0 : countStatus Status.queued s.store = 0
        · exact ⟨s, Relation.ReflTransGen.refl, hq0, hp0⟩
        · obtain ⟨rq, hrqm, hrqs⟩ :=
            exists_mem_of_countStatus_pos (Nat.pos_of_ne_zero hq0)
          have hrun : s.running = [] := by
            rw [List.eq_nil_iff_forall_not_mem]
            intro rr hrr
            rcases hinv.runStore rr hrr with ⟨rs, hrs, _, _, _, hps⟩
            have : 0 < countStatus Status.pinning s.store :=
              List.countP_pos.mpr ⟨rs, hrs, by simp [hps]⟩
            omega
          obtain ⟨r', hold⟩ := oldestQueued_isSome hrqm hrqs
          obtain ⟨hrm, hrq⟩ := oldestQueued_mem hold
          have hlt : s.running.length < M := by rw [hrun]; simpa using hM
          have hstep := Step.dispatch (M := M) (h := h) s r' 0 hlt hold
          obtain ⟨l₁, l₂, hsplit⟩ := List.append_of_mem hrm
          have hdec := setStatus_decomp hinv.nodupStore hsplit Status.pinning 0
          have hq1 : countStatus Status.queued
              (setStatus s.store r'.key r'.requestid Status.pinning 0) + 1 =
              countStatus Status.queued s.store := by
            rw [hdec, hsplit, countStatus_split, countStatus_split]
            simp [hrq]
          have hp1 : countStatus Status.pinning
              (setStatus s.store r'.key r'.requestid Status.pinning 0) =
              countStatus Status.pinning s.store + 1 := by
            rw [hdec, hsplit, countStatus_split, countStatus_split]
            simp [hrq]
          obtain ⟨t, hrt, hct⟩ := ih
            (2 * countStatus Status.queued
              (setStatus s.store r'.key r'.requestid Status.pinning 0) +
             countStatus Status.pinning
              (setStatus s.store r'.key r'.requestid Status.pinning 0))
            (by omega) _ rfl (inv_step hstep hinv)
          exact ⟨t, Relation.ReflTransGen.head hstep hrt, hct⟩
      · obtain ⟨rs, hrsm, hrsp⟩ :=
          exists_mem_of_countStatus_pos (Nat.pos_of_ne_zero hp0)
        obtain ⟨rr, hrr, hk, hi⟩ := hinv.pinningRun rs hrsm hrsp
        have hstep := Step.complete (M := M) (h := h) s rr 0 hrr
        obtain ⟨l₁, l₂, hsplit⟩ := List.append_of_mem hrsm
        have hdec : setStatus s.store rr.key rr.requestid
            (if h rr then Status.pinned else Status.failed) 0 =
            l₁ ++ { rs with status := if h rr then Status.pinned else Status.failed, updated := 0 } :: l₂ := by
          rw [hk, hi]
          exact setStatus_decomp hinv.nodupStore hsplit _ 0
        have hq1 : countStatus Status.queued
            (setStatus s.store rr.key rr.requestid
              (if h rr then Status.pinned else Status.failed) 0) =
            countStatus Status.queued s.store := by
          rw [hdec, hsplit, countStatus_split, countStatus_split]
          by_cases hh : h rr = true <;> simp [hh, hrsp]
        have hp1 : countStatus Status.pinning
            (setStatus s.store rr.key rr.requestid
              (if h rr then Status.pinned else Status.failed) 0) + 1 =
            countStatus Status.pinning s.store := by
          rw [hdec, hsplit, countStatus_split, countStatus_split]
          by_cases hh : h rr = true <;> simp [hh, hrsp]
        obtain ⟨t, hrt, hct⟩ := ih
          (2 * countStatus Status.queued
            (setStatus s.store rr.key rr.requestid
              (if h rr then Status.pinned else Status.failed) 0) +
           countStatus Status.pinning
            (setStatus s.store rr.key rr.requestid
              (if h rr then Status.pinned else Status.failed) 0))
          (by omega) _ rfl (inv_step hstep hinv)
        exact ⟨t, Relation.ReflTransGen.head hstep hrt, hct⟩
  intro s hinv
  exact main _ s rfl hinv

/-! ### The end-to-end processing scenario

The 500-request scenario of the queue test: requests carry payloads
`"100ms,failure"` for every 10th request and `"100ms,success"` for the
rest; the handler parses the outcome component after the comma and
returns nil exactly when it reads `success`. -/

/-- Everything after the first comma of a character list. -/
def afterComma : List Char → List Char
  | [] => []
  | c :: cs => if c = ',' then cs else afterComma cs

/-- The test handler: parses the payload `"duration,outcome"` and returns
nil (`true`) exactly when the outcome component is `success`. -/
def scenHandler (r : Request) : Bool := afterComma r.pinCid.data == "success".data

/-- Payload of the `i`-th scenario request: every 10th fails. -/
def scenPinCid (i : Nat) : String :=
  if i % 10 = 0 then "100ms,failure" else "100ms,success"

/-- The `i`-th scenario request, queued with a time-sortable identifier. -/
def scenReq (i : Nat) : Request :=
  { key := "k", requestid := NewIDFromTime (1000 + i) [], status := Status.queued,
    pinCid := scenPinCid i, created := i, updated := i }

/-- The scenario store: 500 requests added under one key. -/
def scenStore : List Request := (List.range 500).map scenReq

theorem scenHandler_pin (r₁ r₂ : Request) (h₁ : r₁.key = r₂.key)
    (h₂ : r₁.requestid = r₂.requestid) (h₃ : r₁.pinCid = r₂.pinCid) :
    scenHandler r₁ = scenHandler r₂ := by
  unfold scenHandler
  rw [h₃]

theorem scenHandler_scenReq (i : Nat) :
    scenHandler (scenReq i) = !(decide (i % 10 = 0)) := by
  by_cases hi : i % 10 = 0
  · have hpc : (scenReq i).pinCid = "100ms,failure" := by
      show scenPinCid i = _
      rw [scenPinCid, if_pos hi]
    rw [scenHandler, hpc]
    simp only [hi, decide_True]
    decide
  · have hpc : (scenReq i).pinCid = "100ms,success" := by
      show scenPinCid i = _
      rw [scenPinCid, if_neg hi]
    rw [scenHandler, hpc]
    simp only [hi, decide_False]
    decide

theorem scen_nodup : nodupPairs scenStore := by
  unfold nodupPairs scenStore
  rw [List.map_map]
  refine List.Nodup.map_on ?_ (List.nodup_range 500)
  intro i hi j hj hij
  have hid : NewIDFromTime (1000 + i) [] = NewIDFromTime (1000 + j) [] := by
    have := congrArg Prod.snd hij
    simpa [Function.comp, pairOf, scenReq] using this
  have hi500 : i < 500 := List.mem_range.mp hi
  have hj500 : j < 500 := List.mem_range.mp hj
  have hbound : ∀ m : Nat, m < 500 → 1000 + m < 10 ^ idTimeWidth := by
    intro m hm
    calc 1000 + m < 1500 := by omega
      _ < 10 ^ idTimeWidth := by norm_num [idTimeWidth]
  rcases Nat.lt_trichotomy i j with hlt | heq | hgt
  · exact absurd hid (NewIDFromTime_ne_of_time_lt [] [] (by omega) (hbound j hj500))
  · exact heq
  · exact absurd hid.symm (NewIDFromTime_ne_of_time_lt [] [] (by omega) (hbound i hi500))

theorem scen_queued : ∀ r ∈ scenStore, r.status = Status.queued := by
  intro r hr
  rcases List.mem_map.mp hr with ⟨i, _, hri⟩
  rw [← hri]
  rfl

set_option maxRecDepth 10000 in
theorem scen_count_success : scenStore.countP (fun r₀ => scenHandler r₀) = 450 := by
  unfold scenStore
  rw [List.countP_map]
  have hcongr : (List.range 500).countP ((fun r₀ => scenHandler r₀) ∘ scenReq) =
      (List.range 500).countP (fun i => !(decide (i % 10 = 0))) := by
    refine List.countP_congr ?_
    intro i _
    rw [Function.comp, scenHandler_scenReq]
  rw [hcongr]
  decide

set_option maxRecDepth 10000 in
theorem scen_count_failure : scenStore.countP (fun r₀ => !(scenHandler r₀)) = 50 := by
  unfold scenStore
  rw [List.countP_map]
  have hcongr : (List.range 500).countP ((fun r₀ => !(scenHandler r₀)) ∘ scenReq) =
      (List.range 500).countP (fun i => decide (i % 10 = 0)) := by
    refine List.countP_congr ?_
    intro i _
    rw [Function.comp]
    show (!(scenHandler (scenReq i))) = _ ↔ _
    rw [scenHandler_scenReq, Bool.not_not]
  rw [hcongr]
  decide

/-- C1: every admitted request whose handler returns nil is persisted as
`Pinned` and every handler error as `Failed`; consequently, after all 500
scenario requests complete (the handler failing for exactly every 10th
request), the store holds 450 `Pinned`, 50 `Failed`, and no `Queued` or
`Pinning` requests — in any completed run, whatever the concurrency bound
and interleaving. -/
theorem c1_processing (M : Nat) (s : QState)
    (hreach : Reachable M scenHandler (initState scenStore) s)
    (hdone : Complete s) :
    countStatus Status.pinned s.store = 450 ∧
    countStatus Status.failed s.store = 50 ∧
    countStatus Status.queued s.store = 0 ∧
    countStatus Status.pinning s.store = 0 := by
  obtain ⟨hinv, htr⟩ := reach_inv scenHandler_pin scen_nodup scen_queued hreach
  obtain ⟨hq0, hp0⟩ := hdone
  have hterm : ∀ r ∈ s.store, r.status ≠ Status.queued ∧ r.status ≠ Status.pinning := by
    intro r hr
    constructor
    · intro hc
      have := List.countP_eq_zero.mp hq0 r hr
      simp [hc] at this
    · intro hc
      have := List.countP_eq_zero.mp hp0 r hr
      simp [hc] at this
  have htr' : List.Forall₂ (fun r₀ r => r.status =
      (if scenHandler r₀ then Status.pinned else Status.failed)) scenStore s.store := by
    refine forall₂_imp_mem htr ?_
    intro r₀ r hr htx
    rcases htx.2.2.2.2 with h1 | h1 | h1
    · exact absurd h1 (hterm r hr).1
    · exact absurd h1 (hterm r hr).2
    · exact h1
  refine ⟨?_, ?_, hq0, hp0⟩
  · have hcnt := forall₂_countP (fun r₀ => scenHandler r₀)
      (fun r => r.status == Status.pinned) htr' ?_
    · rw [countStatus, ← hcnt, scen_count_success]
    · intro a b hab
      show scenHandler a = (b.status == Status.pinned)
      rw [hab]
      by_cases hh : scenHandler a = true <;> simp [hh]
  · have hcnt := forall₂_countP (fun r₀ => !(scenHandler r₀))
      (fun r => r.status == Status.failed) htr' ?_
    · rw [countStatus, ← hcnt, scen_count_failure]
    · intro a b hab
      show (!(scenHandler a)) = (b.status == Status.failed)
      rw [hab]
      by_cases hh : scenHandler a = true <;> simp [hh]

theorem c1_processing_witness :
    ∃ s, Reachable 1 scenHandler (initState scenStore) s ∧ Complete s ∧
      (countStatus Status.pinned s.store = 450 ∧
       countStatus Status.failed s.store = 50 ∧
       countStatus Status.queued s.store = 0 ∧
       countStatus Status.pinning s.store = 0) := by
  obtain ⟨s, hr, hc⟩ := exists_complete (le_refl 1) (initState scenStore)
    (inv_init 1 scen_nodup scen_queued)
  exact ⟨s, hr, hc, c1_processing 1 s hr hc⟩

/-! ### The frame property of dispatcher transitions -/

/-- C10: dispatcher transitions modify only the `Status` and `UpdatedAt`
fields of a record; every in-flight handler invocation carries the key,
identifier and payload supplied at `AddRequest` time; and after all work
completes, `GetRequest` returns a record that equals the originally added
one except for a terminal status (and timestamp). -/
theorem c10_frame (M : Nat) (h : Request → Bool) (init : List Request) (s : QState)
    (hpin : ∀ r₁ r₂ : Request, r₁.key = r₂.key → r₁.requestid = r₂.requestid →
      r₁.pinCid = r₂.pinCid → h r₁ = h r₂)
    (hn : nodupPairs init) (hq : ∀ r ∈ init, r.status = Status.queued)
    (hreach : Reachable M h (initState init) s) :
    List.Forall₂ (fun r₀ r => ∃ st u, r = { r₀ with status := st, updated := u })
      init s.store ∧
    (∀ rr ∈ s.running, ∃ r₀ ∈ init, rr.key = r₀.key ∧ rr.requestid = r₀.requestid ∧
      rr.pinCid = r₀.pinCid) ∧
    (Complete s → ∀ r₀ ∈ init, ∃ r', GetRequest s.store r₀.key r₀.requestid = .ok r' ∧
      r'.key = r₀.key ∧ r'.requestid = r₀.requestid ∧ r'.pinCid = r₀.pinCid ∧
      (r'.status = Status.pinned ∨ r'.status = Status.failed)) := by
  obtain ⟨hinv, htr⟩ := reach_inv hpin hn hq hreach
  refine ⟨?_, ?_, ?_⟩
  · refine forall₂_imp_mem htr ?_
    intro r₀ r _ htx
    refine ⟨r.status, r.updated, ?_⟩
    rcases htx with ⟨h1, h2, h3, h4, _⟩
    cases r; cases r₀
    simp_all
  · intro rr hrr
    rcases hinv.runStore rr hrr with ⟨rs, hrs, hk, hi, hp, _⟩
    rcases forall₂_mem_right htr rs hrs with ⟨r₀, hr₀, htx⟩
    exact ⟨r₀, hr₀, hk.symm.trans htx.1, hi.symm.trans htx.2.1, hp.symm.trans htx.2.2.1⟩
  · rintro ⟨hq0, hp0⟩ r₀ hr₀
    rcases forall₂_mem_left htr r₀ hr₀ with ⟨r', hr', htx⟩
    have hterm : r'.status = (if h r₀ then Status.pinned else Status.failed) := by
      rcases htx.2.2.2.2 with h1 | h1 | h1
      · exfalso
        have := List.countP_eq_zero.mp hq0 r' hr'
        simp [h1] at this
      · exfalso
        have := List.countP_eq_zero.mp hp0 r' hr'
        simp [h1] at this
      · exact h1
    have hpred : (r'.key == r₀.key && r'.requestid == r₀.requestid) = true := by
      simp [htx.1, htx.2.1]
    have hsome : (s.store.find?
        (fun r => r.key == r₀.key && r.requestid == r₀.requestid)).isSome = true :=
      List.find?_isSome.mpr ⟨r', hr', hpred⟩
    rcases Option.isSome_iff_exists.mp hsome with ⟨r'', hfind⟩
    have hr''mem := List.mem_of_find?_eq_some hfind
    have hr''p := List.find?_some hfind
    have hr''eq : r'' = r' := by
      refine mem_unique_of_pair hinv.nodupStore hr''mem hr' ?_
      rw [pairOf_eq_iff]
      simp only [Bool.and_eq_true, beq_iff_eq] at hr''p hpred
      exact ⟨hr''p.1.trans hpred.1.symm, hr''p.2.trans hpred.2.symm⟩
    refine ⟨r', ?_, htx.1, htx.2.1, htx.2.2.1, ?_⟩
    · unfold GetRequest
      rw [hfind, hr''eq]
    · rw [hterm]
      by_cases hh : h r₀ = true <;> simp [hh]

/-- A one-request queued store used by the frame witness. -/
def c10store : List Request := [wr "9" .queued]

theorem c10_frame_witness :
    List.Forall₂ (fun r₀ r => ∃ st u, r = { r₀ with status := st, updated := u })
      c10store (initState c10store).store ∧
    (∀ rr ∈ (initState c10store).running, ∃ r₀ ∈ c10store, rr.key = r₀.key ∧
      rr.requestid = r₀.requestid ∧ rr.pinCid = r₀.pinCid) ∧
    (Complete (initState c10store) → ∀ r₀ ∈ c10store, ∃ r',
      GetRequest (initState c10store).store r₀.key r₀.requestid = .ok r' ∧
      r'.key = r₀.key ∧ r'.requestid = r₀.requestid ∧ r'.pinCid = r₀.pinCid ∧
      (r'.status = Status.pinned ∨ r'.status = Status.failed)) :=
  c10_frame 1 (fun _ => true) c10store (initState c10store)
    (fun _ _ _ _ _ => rfl) (by decide) (by decide) Relation.ReflTransGen.refl

theorem c8_id_order_witness :
    ridLt (NewIDFromTime 1 [0]) (NewIDFromTime 2 [1]) = true ∧
    NewIDFromTime 1 [0] ≠ NewIDFromTime 2 [1] ∧
    (∀ (t : Nat) (e e' : List Nat), (∀ d ∈ e, d < 10) → (∀ d ∈ e', d < 10) →
      e ≠ e' → NewIDFromTime t e ≠ NewIDFromTime t e') ∧
    (∀ a b : String, a ≠ b → ridLt a b = true ∨ ridLt b a = true) :=
  c8_id_order 1 2 [0] [1] (by decide) (by norm_num [idTimeWidth])

end PinQueue
